import Mathlib

/-!
Verification of the zero-noise-extrapolation (ZNE) inference engine described
by the specification of this repository.  The repository itself is a teaching
notebook whose engine (the `RichardsonFactory` / `LinearFactory` objects with
`push` / `reduce`) lives in the external `mitiq` library; the notebook only
constructs factories, pushes `(scale_factor, value)` pairs and reduces.  The
engine is therefore modelled from the specification, with real numbers
embedded as rationals (every rational is a finite real; `NaN` and infinities
have no counterpart in the embedding).
-/

namespace ZNE

/-- Modelled from the spec: the tagged fit-model variant
`{Linear, Polynomial(degree), Richardson}` of the Extrapolation Engine
(the notebook delegates these to `mitiq.zne.inference`, absent from the
repository sources). -/
inductive FitModel where
  | Linear : FitModel
  | Polynomial : Nat → FitModel
  | Richardson : FitModel
deriving DecidableEq, Repr

/-- Modelled from the spec: the minimum number of scale factors each fit
model requires (Linear: 2, Polynomial(d): d+1, Richardson with n points:
n with n ≥ 2, hence at least 2). -/
def FitModel.minPoints : FitModel → Nat
  | .Linear => 2
  | .Polynomial d => d + 1
  | .Richardson => 2

/-- Modelled from the spec: a Sample is an ordered pair
`(scale_factor : positive real, value : real)`; reals are embedded as
rationals. -/
structure Sample where
  scaleFactor : ℚ
  value : ℚ
deriving DecidableEq, Repr

/-- Modelled from the spec: the error taxonomy of the engine. -/
inductive ZneError where
  | InvalidScaleFactor : ZneError
  | InsufficientScaleFactors : ZneError
  | MissingSamples : ZneError
  | NumericalFitFailure : ZneError
deriving DecidableEq, Repr

/-- Modelled from the spec: the engine's state-machine tag
(Idle → Accumulating → Reduced). -/
inductive EngineState where
  | Idle : EngineState
  | Accumulating : EngineState
  | Reduced : EngineState
deriving DecidableEq, Repr

/-- Modelled from the spec: the scalar zero-noise estimate produced by one
`reduce` call. -/
structure ExtrapolationResult where
  zeroNoiseValue : ℚ
deriving DecidableEq, Repr

/-- Modelled from the spec: an Extrapolation Engine owning its append-only
SampleSet (`store`), the declared scale factors, the state-machine tag and
the cached result of the last `reduce` (invalidated by `push`). -/
structure Engine where
  fitModel : FitModel
  scaleFactors : List ℚ
  store : List Sample
  state : EngineState
  cached : Option ℚ
deriving DecidableEq, Repr

/-- Modelled from the spec: `construct(fit_model, scale_factors)` validates
positivity of every scale factor and that enough scale factors are supplied
for the model; the fresh engine is Idle with an empty store. -/
def construct (model : FitModel) (scaleFactors : List ℚ) : Except ZneError Engine :=
  if scaleFactors.any (fun s => s ≤ 0) then .error .InvalidScaleFactor
  else if scaleFactors.length < model.minPoints then .error .InsufficientScaleFactors
  else .ok { fitModel := model, scaleFactors := scaleFactors, store := [],
             state := .Idle, cached := none }

/-- Modelled from the spec: `push(scale_factor, value)` appends a Sample when
the scale factor is positive (every rational is finite), moves the engine to
Accumulating and invalidates the cached result; otherwise it fails with
`InvalidScaleFactor` and produces no new engine state. -/
def Engine.push (e : Engine) (s v : ℚ) : Except ZneError Engine :=
  if 0 < s then
    .ok { e with store := e.store ++ [⟨s, v⟩], state := .Accumulating, cached := none }
  else .error .InvalidScaleFactor

/-- Modelled from the spec: `samples()` produces the full ordered sequence of
recorded Sample entries (read-only view). -/
def Engine.samples (e : Engine) : List Sample := e.store

/-- Modelled from the spec: `clear()` resets the store to empty for re-use
across independent extrapolation runs (back to Idle, no cached result). -/
def Engine.clear (e : Engine) : Engine :=
  { e with store := [], state := .Idle, cached := none }

/-- Modelled from the spec: the values recorded in a store for one scale
factor, in insertion order. -/
def samplesAt (store : List Sample) (s : ℚ) : List ℚ :=
  (store.filter (fun smp => smp.scaleFactor = s)).map Sample.value

/-- Modelled from the spec: the arithmetic mean of a list of values. -/
def mean (l : List ℚ) : ℚ := l.sum / l.length

/-- Modelled from the spec: the value at scale factor 0 of the unique
interpolating polynomial through the given points, by the Lagrange formula
(the Richardson fit). -/
def lagrangeAt0 (pts : List (ℚ × ℚ)) : ℚ :=
  (pts.map (fun p =>
     p.2 * ((pts.filter (fun q => q.1 ≠ p.1)).map (fun q => q.1 / (q.1 - p.1))).prod)).sum

/-- Modelled from the spec: the intercept of the ordinary-least-squares line
through the given points; singular systems (all abscissae equal) are
surfaced as `NumericalFitFailure`. -/
def linearFitIntercept (pts : List (ℚ × ℚ)) : Except ZneError ℚ :=
  let n : ℚ := pts.length
  let sx := (pts.map Prod.fst).sum
  let sy := (pts.map Prod.snd).sum
  let sxx := (pts.map (fun p => p.1 * p.1)).sum
  let sxy := (pts.map (fun p => p.1 * p.2)).sum
  let d := n * sxx - sx * sx
  if d = 0 then .error .NumericalFitFailure
  else .ok ((sy * sxx - sx * sxy) / d)

/-- Removes column `j` from every row of a matrix given as a list of rows. -/
def stripCol (j : Nat) (m : List (List ℚ)) : List (List ℚ) :=
  m.map (fun r => r.take j ++ r.drop (j + 1))

/-- Determinant of a square matrix given as a list of rows, by Laplace
expansion along the first row. -/
def det (m : List (List ℚ)) : ℚ :=
  match m with
  | [] => 1
  | row :: rest =>
      ((List.range row.length).map
        (fun j => (-1 : ℚ) ^ j * row.getD j 0 * det (stripCol j rest))).sum
termination_by m.length
decreasing_by simp [stripCol]

/-- Replaces column `j` of a matrix by the vector `b` (for Cramer's rule). -/
def replaceCol (m : List (List ℚ)) (b : List ℚ) (j : Nat) : List (List ℚ) :=
  List.zipWith (fun row bi => row.take j ++ [bi] ++ row.drop (j + 1)) m b

/-- Modelled from the spec: the value at scale factor 0 of the least-squares
polynomial of degree `d` through the given points, via the normal equations
solved by Cramer's rule; a singular system is surfaced as
`NumericalFitFailure`. -/
def polyFitAt0 (d : Nat) (pts : List (ℚ × ℚ)) : Except ZneError ℚ :=
  let m := (List.range (d + 1)).map (fun j =>
    (List.range (d + 1)).map (fun k => (pts.map (fun p => p.1 ^ (j + k))).sum))
  let b := (List.range (d + 1)).map (fun j => (pts.map (fun p => p.2 * p.1 ^ j)).sum)
  let dd := det m
  if dd = 0 then .error .NumericalFitFailure
  else .ok (det (replaceCol m b 0) / dd)

/-- Modelled from the spec: each fit model's mapping from the effective
`(scale_factor, value)` points to the fitted curve's value at scale factor 0;
duplicate abscissae in a Richardson fit are a `NumericalFitFailure`. -/
def fitAt0 : FitModel → List (ℚ × ℚ) → Except ZneError ℚ
  | .Richardson, pts =>
      if (pts.map Prod.fst).Nodup then .ok (lagrangeAt0 pts)
      else .error .NumericalFitFailure
  | .Linear, pts => linearFitIntercept pts
  | .Polynomial d, pts => polyFitAt0 d pts

/-- Modelled from the spec: the effective observed points consumed by the
fit — one point per declared scale factor, whose ordinate is the arithmetic
mean of that scale factor's recorded samples. -/
def Engine.effectivePoints (e : Engine) : List (ℚ × ℚ) :=
  e.scaleFactors.map (fun s => (s, mean (samplesAt e.store s)))

/-- Modelled from the spec: the fit computation of `reduce`, run when no
cached result is available; on success the engine is Reduced and the result
cached. -/
def Engine.reduceFresh (e : Engine) : Except ZneError (ExtrapolationResult × Engine) :=
  match fitAt0 e.fitModel e.effectivePoints with
  | .error err => .error err
  | .ok z => .ok (⟨z⟩, { e with state := .Reduced, cached := some z })

/-- Modelled from the spec: `reduce()` requires at least one sample per
declared scale factor (else `MissingSamples`, with no partial result), then
returns the cached result if one is valid and otherwise computes the fit
over the effective points. -/
def Engine.reduce (e : Engine) : Except ZneError (ExtrapolationResult × Engine) :=
  if e.scaleFactors.any (fun s => (samplesAt e.store s).isEmpty) then
    .error .MissingSamples
  else
    match e.cached with
    | some z => .ok (⟨z⟩, { e with state := .Reduced })
    | none => e.reduceFresh

/-- The observable scalar outcome of one `reduce` call: the zero-noise value
on success, the error otherwise; used to state order-independence of the
fit with respect to the accumulated samples. -/
def Engine.reduceValue (e : Engine) : Except ZneError ℚ :=
  match e.reduce with
  | .error err => .error err
  | .ok (r, _) => .ok r.zeroNoiseValue

/-- Pushes a list of `(scale_factor, value)` pairs in order, mirroring the
notebook's loop `for s, val in zip(scale_factors, noise_scaled_vals):
factory.push({"scale_factor": s}, val)`. -/
def Engine.pushAll (e : Engine) (data : List (ℚ × ℚ)) : Except ZneError Engine :=
  match data with
  | [] => .ok e
  | (s, v) :: rest =>
      match e.push s v with
      | .error err => .error err
      | .ok e' => e'.pushAll rest

/-- The notebook's end-to-end inference flow: construct a factory over the
declared scale factors, push the measured `(scale_factor, value)` pairs,
reduce, and return the scalar zero-noise estimate. -/
def runZNE (model : FitModel) (scaleFactors : List ℚ) (data : List (ℚ × ℚ)) :
    Except ZneError ℚ :=
  match construct model scaleFactors with
  | .error err => .error err
  | .ok e =>
      match e.pushAll data with
      | .error err => .error err
      | .ok e' =>
          match e'.reduce with
          | .error err => .error err
          | .ok (r, _) => .ok r.zeroNoiseValue

/-- Polynomial evaluation in Horner form for a polynomial given by its
coefficient list `[c₀, c₁, …]` (so a list of length n represents a
polynomial of degree at most n − 1). -/
def evalPoly (coeffs : List ℚ) (x : ℚ) : ℚ :=
  coeffs.foldr (fun c acc => c + x * acc) 0

/-- The polynomial with coefficient list `coeffs`, used only to relate the
executable Horner evaluation to Mathlib's polynomial interpolation theory. -/
noncomputable def listPoly (coeffs : List ℚ) : Polynomial ℚ :=
  ∑ i ∈ Finset.range coeffs.length, Polynomial.C (coeffs.getD i 0) * Polynomial.X ^ i


/-! ### Plumbing lemmas about the store and the engine -/

lemma samplesAt_nil (s : ℚ) : samplesAt [] s = [] := rfl

lemma samplesAt_append (st₁ st₂ : List Sample) (s : ℚ) :
    samplesAt (st₁ ++ st₂) s = samplesAt st₁ s ++ samplesAt st₂ s := by
  simp [samplesAt, List.filter_append]

lemma samplesAt_cons (smp : Sample) (st : List Sample) (s : ℚ) :
    samplesAt (smp :: st) s =
      if smp.scaleFactor = s then smp.value :: samplesAt st s else samplesAt st s := by
  by_cases h : smp.scaleFactor = s <;> simp [samplesAt, List.filter_cons, h]

lemma samplesAt_map_of_not_mem (f : ℚ → ℚ) (sf : List ℚ) (s₀ : ℚ) (h : s₀ ∉ sf) :
    samplesAt (sf.map (fun s => Sample.mk s (f s))) s₀ = [] := by
  induction sf with
  | nil => rfl
  | cons s tl ih =>
      have h1 : ¬s = s₀ := fun hc => h (hc ▸ List.mem_cons_self s tl)
      have h2 : s₀ ∉ tl := fun hc => h (List.mem_cons_of_mem s hc)
      simpa [samplesAt_cons, h1] using ih h2

lemma samplesAt_map_of_nodup (f : ℚ → ℚ) (sf : List ℚ) (hnd : sf.Nodup) (s₀ : ℚ)
    (hmem : s₀ ∈ sf) :
    samplesAt (sf.map (fun s => Sample.mk s (f s))) s₀ = [f s₀] := by
  induction sf with
  | nil => cases hmem
  | cons s tl ih =>
      obtain ⟨hs, htl⟩ := List.nodup_cons.mp hnd
      rcases List.mem_cons.mp hmem with h | h
      · subst h
        simpa [samplesAt_cons] using samplesAt_map_of_not_mem f tl s₀ hs
      · have h1 : ¬s = s₀ := fun hc => hs (hc ▸ h)
        simpa [samplesAt_cons, h1] using ih htl h

lemma mean_singleton (y : ℚ) : mean [y] = y := by simp [mean]

lemma construct_ok (model : FitModel) (sf : List ℚ) (hpos : ∀ s ∈ sf, 0 < s)
    (hlen : model.minPoints ≤ sf.length) :
    construct model sf = .ok ⟨model, sf, [], .Idle, none⟩ := by
  have hA : ¬(sf.any (fun s => decide (s ≤ 0)) = true) := by
    intro hc
    obtain ⟨s, hs, hle⟩ := List.any_eq_true.mp hc
    exact absurd (of_decide_eq_true hle) (not_le.mpr (hpos s hs))
  have hB : ¬(sf.length < model.minPoints) := Nat.not_lt.mpr hlen
  unfold construct
  rw [if_neg hA, if_neg hB]

lemma push_ok (e : Engine) (s v : ℚ) (h : 0 < s) :
    e.push s v = .ok { e with store := e.store ++ [⟨s, v⟩],
                              state := .Accumulating, cached := none } := by
  simp [Engine.push, h]

lemma push_err (e : Engine) (s v : ℚ) (h : ¬0 < s) :
    e.push s v = .error .InvalidScaleFactor := by
  simp [Engine.push, h]

lemma pushAll_ok (data : List (ℚ × ℚ)) : ∀ e : Engine, (∀ p ∈ data, 0 < p.1) →
    ∃ e', e.pushAll data = .ok e' ∧ e'.fitModel = e.fitModel ∧
      e'.scaleFactors = e.scaleFactors ∧
      e'.store = e.store ++ data.map (fun p => Sample.mk p.1 p.2) ∧
      e'.cached = (if data.isEmpty then e.cached else none) := by
  induction data with
  | nil => exact fun e _ => ⟨e, rfl, rfl, rfl, by simp, by simp⟩
  | cons p rest ih =>
      intro e h
      obtain ⟨s, v⟩ := p
      have hs : 0 < s := h (s, v) (List.mem_cons_self _ _)
      have hrest : ∀ q ∈ rest, 0 < q.1 := fun q hq => h q (List.mem_cons_of_mem _ hq)
      obtain ⟨e', he', h1, h2, h3, h4⟩ :=
        ih { e with store := e.store ++ [⟨s, v⟩], state := .Accumulating, cached := none } hrest
      refine ⟨e', ?_, h1, h2, ?_, ?_⟩
      · simp [Engine.pushAll, push_ok e s v hs, he']
      · rw [h3]; simp
      · rw [h4]; by_cases hr : rest.isEmpty <;> simp [hr]

lemma reduce_not_missing (e : Engine)
    (hne : ∀ s ∈ e.scaleFactors, samplesAt e.store s ≠ []) :
    e.scaleFactors.any (fun s => (samplesAt e.store s).isEmpty) = false := by
  rw [← Bool.not_eq_true, List.any_eq_true]
  rintro ⟨s, hs, hemp⟩
  exact hne s hs (List.isEmpty_iff.mp hemp)

lemma reduce_eq_fresh (e : Engine) (hc : e.cached = none)
    (hne : ∀ s ∈ e.scaleFactors, samplesAt e.store s ≠ []) :
    e.reduce = e.reduceFresh := by
  simp only [Engine.reduce, reduce_not_missing e hne, hc, Bool.false_eq_true,
    if_false]

lemma reduce_missing (e : Engine) (s : ℚ) (hs : s ∈ e.scaleFactors)
    (hemp : samplesAt e.store s = []) :
    e.reduce = .error .MissingSamples := by
  have : e.scaleFactors.any (fun s => (samplesAt e.store s).isEmpty) = true :=
    List.any_eq_true.mpr ⟨s, hs, by simp [hemp]⟩
  simp only [Engine.reduce, this, if_true]

lemma runZNE_eq_fitAt0 (model : FitModel) (sf : List ℚ) (f : ℚ → ℚ)
    (hpos : ∀ s ∈ sf, 0 < s) (hnd : sf.Nodup) (hlen : model.minPoints ≤ sf.length) :
    runZNE model sf (sf.map (fun s => (s, f s))) =
      fitAt0 model (sf.map (fun s => (s, f s))) := by
  have hC := construct_ok model sf hpos hlen
  have hdata : ∀ p ∈ sf.map (fun s => (s, f s)), 0 < p.1 := by
    intro p hp
    obtain ⟨s, hs, rfl⟩ := List.mem_map.mp hp
    exact hpos s hs
  obtain ⟨e', hPA, hfm, hsf, hst, hcc⟩ :=
    pushAll_ok _ (⟨model, sf, [], .Idle, none⟩ : Engine) hdata
  have hst' : e'.store = sf.map (fun s => Sample.mk s (f s)) := by
    rw [hst]; simp [List.map_map, Function.comp]
  have hcc' : e'.cached = none := by
    rw [hcc]; by_cases hr : (sf.map (fun s => (s, f s))).isEmpty <;> simp [hr]
  have hne : ∀ s ∈ e'.scaleFactors, samplesAt e'.store s ≠ [] := by
    rw [hsf, hst']
    intro s hs
    rw [samplesAt_map_of_nodup f sf hnd s hs]
    simp
  have hred := reduce_eq_fresh e' hcc' hne
  have hep : e'.effectivePoints = sf.map (fun s => (s, f s)) := by
    simp only [Engine.effectivePoints, hsf, hst']
    refine List.map_congr_left ?_
    intro s hs
    rw [samplesAt_map_of_nodup f sf hnd s hs, mean_singleton]
  simp only [runZNE, hC, hPA, hred, Engine.reduceFresh, hep, hfm]
  cases h : fitAt0 model (sf.map fun s => (s, f s)) <;> simp [h]

/-! ### Exactness of the Richardson (Lagrange-interpolation) fit -/

lemma filter_map_prod (l : List α) (p : α → Bool) (f : α → ℚ) :
    ((l.filter p).map f).prod = (l.map (fun a => if p a then f a else 1)).prod := by
  induction l with
  | nil => rfl
  | cons a tl ih => by_cases h : p a <;> simp [List.filter_cons, h, ih]

lemma lagrangeAt0_ofFn {n : ℕ} (x y : Fin n → ℚ) (hinj : Function.Injective x) :
    lagrangeAt0 (List.ofFn (fun i => (x i, y i))) =
      ∑ i : Fin n, y i * ∏ j ∈ Finset.univ.erase i, x j / (x j - x i) := by
  unfold lagrangeAt0
  rw [List.map_ofFn, List.sum_ofFn]
  refine Finset.sum_congr rfl ?_
  intro i _
  have hfilter :
      (((List.ofFn (fun k => (x k, y k))).filter
          (fun q => decide (q.1 ≠ x i))).map (fun q => q.1 / (q.1 - x i))).prod =
        ∏ j ∈ Finset.univ.erase i, x j / (x j - x i) := by
    rw [filter_map_prod, List.map_ofFn, List.prod_ofFn]
    have herase : Finset.univ.erase i = Finset.univ.filter (fun j => x j ≠ x i) := by
      ext j
      simp only [Finset.mem_erase, Finset.mem_filter, Finset.mem_univ, true_and,
        and_true]
      exact ⟨fun hj hx => hj (hinj hx), fun hx hj => hx (hj ▸ rfl)⟩
    rw [herase, Finset.prod_filter]
    refine Finset.prod_congr rfl ?_
    intro j _
    by_cases h : x j ≠ x i <;> simp [Function.comp, h]
  simpa [Function.comp] using congrArg (fun z => y i * z) hfilter

lemma eval_interpolate_at_zero {n : ℕ} (x y : Fin n → ℚ) :
    (Lagrange.interpolate Finset.univ x y).eval 0 =
      ∑ i : Fin n, y i * ∏ j ∈ Finset.univ.erase i, x j / (x j - x i) := by
  rw [Lagrange.interpolate_apply, Polynomial.eval_finset_sum]
  refine Finset.sum_congr rfl ?_
  intro i _
  rw [Polynomial.eval_mul, Polynomial.eval_C]
  congr 1
  show Polynomial.eval 0 (∏ j ∈ Finset.univ.erase i, Lagrange.basisDivisor (x i) (x j)) = _
  rw [Polynomial.eval_prod]
  refine Finset.prod_congr rfl ?_
  intro j _
  rw [Lagrange.basisDivisor]
  simp only [Polynomial.eval_mul, Polynomial.eval_C, Polynomial.eval_sub,
    Polynomial.eval_X, zero_sub]
  rw [div_eq_mul_inv, show x j - x i = -(x i - x j) by ring, inv_neg]
  ring

lemma evalPoly_eq_sum (coeffs : List ℚ) (x : ℚ) :
    evalPoly coeffs x = ∑ i ∈ Finset.range coeffs.length, coeffs.getD i 0 * x ^ i := by
  induction coeffs with
  | nil => simp [evalPoly]
  | cons c cs ih =>
      have hstep : evalPoly (c :: cs) x = c + x * evalPoly cs x := rfl
      rw [hstep, ih, List.length_cons, Finset.sum_range_succ']
      simp only [List.getD_cons_succ, List.getD_cons_zero, pow_zero, mul_one,
        Finset.mul_sum]
      rw [add_comm]
      congr 1
      refine Finset.sum_congr rfl ?_
      intro i _
      ring

lemma eval_listPoly (coeffs : List ℚ) (x : ℚ) :
    (listPoly coeffs).eval x = evalPoly coeffs x := by
  rw [evalPoly_eq_sum, listPoly, Polynomial.eval_finset_sum]
  simp

lemma degree_listPoly (coeffs : List ℚ) :
    (listPoly coeffs).degree < (coeffs.length : ℕ) := by
  apply lt_of_le_of_lt (Polynomial.degree_sum_le _ _)
  rw [Finset.sup_lt_iff (by exact_mod_cast WithBot.bot_lt_coe coeffs.length)]
  intro i hi
  apply lt_of_le_of_lt (Polynomial.degree_C_mul_X_pow_le _ _)
  exact_mod_cast Finset.mem_range.mp hi

lemma richardson_points_exact (sf coeffs : List ℚ) (hnd : sf.Nodup)
    (hdeg : coeffs.length ≤ sf.length) :
    lagrangeAt0 (sf.map (fun s => (s, evalPoly coeffs s))) = evalPoly coeffs 0 := by
  have hofn : sf.map (fun s => (s, evalPoly coeffs s)) =
      List.ofFn (fun i => (sf.get i, evalPoly coeffs (sf.get i))) := by
    conv_lhs => rw [← List.ofFn_get sf]
    rw [List.map_ofFn]
    rfl
  have hinj : Function.Injective sf.get := List.nodup_iff_injective_get.mp hnd
  rw [hofn, lagrangeAt0_ofFn sf.get (fun i => evalPoly coeffs (sf.get i)) hinj,
    ← eval_interpolate_at_zero]
  have hinjOn : Set.InjOn sf.get ↑(Finset.univ : Finset (Fin sf.length)) :=
    Set.injOn_of_injective hinj
  have hdeg' : (listPoly coeffs).degree <
      (Finset.univ : Finset (Fin sf.length)).card := by
    rw [Finset.card_univ, Fintype.card_fin]
    exact lt_of_lt_of_le (degree_listPoly coeffs) (by exact_mod_cast hdeg)
  have heq := Lagrange.eq_interpolate hinjOn hdeg'
  have hfun : (fun i : Fin sf.length => Polynomial.eval (sf.get i) (listPoly coeffs)) =
      (fun i => evalPoly coeffs (sf.get i)) := by
    funext i
    exact eval_listPoly coeffs (sf.get i)
  rw [← hfun, ← heq, eval_listPoly]

/-! ### Exactness of the Linear (ordinary-least-squares) fit -/

lemma map_sq_sub_sum (x : ℚ) (l : List ℚ) :
    (l.map (fun y => (x - y) ^ 2)).sum =
      (l.length : ℚ) * (x * x) - 2 * x * l.sum + (l.map (fun y => y * y)).sum := by
  induction l with
  | nil => simp
  | cons y tl ih =>
      simp only [List.map_cons, List.sum_cons, List.length_cons, ih]
      push_cast
      ring

lemma sum_sq_list_nonneg (f : ℚ → ℚ) (l : List ℚ) :
    0 ≤ (l.map (fun y => (f y) ^ 2)).sum := by
  induction l with
  | nil => simp
  | cons y tl ih =>
      simp only [List.map_cons, List.sum_cons]
      have := sq_nonneg (f y)
      linarith

lemma ols_denom_nonneg (l : List ℚ) :
    0 ≤ (l.length : ℚ) * (l.map (fun y => y * y)).sum - l.sum * l.sum := by
  induction l with
  | nil => simp
  | cons x tl ih =>
      have hq : 0 ≤ (tl.length : ℚ) * (x * x) - 2 * x * tl.sum +
          (tl.map (fun y => y * y)).sum := by
        have := sum_sq_list_nonneg (fun y => x - y) tl
        rwa [map_sq_sub_sum] at this
      simp only [List.length_cons, List.map_cons, List.sum_cons]
      push_cast
      nlinarith [ih, hq]

lemma ols_denom_cons (x : ℚ) (l : List ℚ) :
    ((x :: l).length : ℚ) * ((x :: l).map (fun y => y * y)).sum -
        (x :: l).sum * (x :: l).sum =
      ((l.length : ℚ) * (l.map (fun y => y * y)).sum - l.sum * l.sum) +
        (l.map (fun y => (x - y) ^ 2)).sum := by
  rw [map_sq_sub_sum]
  simp only [List.length_cons, List.map_cons, List.sum_cons]
  push_cast
  ring

lemma ols_denom_pos (sf : List ℚ) (hnd : sf.Nodup) (hlen : 2 ≤ sf.length) :
    0 < (sf.length : ℚ) * (sf.map (fun y => y * y)).sum - sf.sum * sf.sum := by
  match sf, hlen with
  | s0 :: s1 :: rest, _ =>
      have hne : s0 ≠ s1 := by
        intro h
        exact (List.nodup_cons.mp hnd).1 (h ▸ List.mem_cons_self s1 rest)
      have h1 : 0 < (s0 - s1) ^ 2 := sq_pos_of_ne_zero (sub_ne_zero_of_ne hne)
      have h2 : 0 ≤ (rest.map (fun y => (s0 - y) ^ 2)).sum :=
        sum_sq_list_nonneg (fun y => s0 - y) rest
      have h3 : 0 ≤ ((s1 :: rest).length : ℚ) *
          ((s1 :: rest).map (fun y => y * y)).sum -
          (s1 :: rest).sum * (s1 :: rest).sum := ols_denom_nonneg (s1 :: rest)
      have h4 := ols_denom_cons s0 (s1 :: rest)
      have h5 : ((s1 :: rest).map (fun y => (s0 - y) ^ 2)).sum =
          (s0 - s1) ^ 2 + (rest.map (fun y => (s0 - y) ^ 2)).sum := by simp
      rw [h4, h5]
      linarith

lemma sum_map_affine (a b : ℚ) (l : List ℚ) :
    (l.map (fun s => a + b * s)).sum = (l.length : ℚ) * a + b * l.sum := by
  induction l with
  | nil => simp
  | cons y tl ih =>
      simp only [List.map_cons, List.sum_cons, List.length_cons, ih]
      push_cast
      ring

lemma sum_map_mul_affine (a b : ℚ) (l : List ℚ) :
    (l.map (fun s => s * (a + b * s))).sum =
      a * l.sum + b * (l.map (fun s => s * s)).sum := by
  induction l with
  | nil => simp
  | cons y tl ih =>
      simp only [List.map_cons, List.sum_cons, ih]
      ring

lemma linearFit_exact (sf : List ℚ) (a b : ℚ) (hnd : sf.Nodup) (hlen : 2 ≤ sf.length) :
    linearFitIntercept (sf.map (fun s => (s, a + b * s))) = .ok a := by
  have h1 : (sf.map (fun s => (s, a + b * s))).map Prod.fst = sf := by
    rw [List.map_map]
    exact List.map_id sf
  have h2 : (sf.map (fun s => (s, a + b * s))).map Prod.snd =
      sf.map (fun s => a + b * s) := by
    rw [List.map_map]
    rfl
  have h3 : (sf.map (fun s => (s, a + b * s))).map (fun p => p.1 * p.1) =
      sf.map (fun s => s * s) := by
    rw [List.map_map]
    rfl
  have h4 : (sf.map (fun s => (s, a + b * s))).map (fun p => p.1 * p.2) =
      sf.map (fun s => s * (a + b * s)) := by
    rw [List.map_map]
    rfl
  have hsq : sf.map (fun s => s * s) = sf.map (fun y => y * y) := rfl
  have hd : (sf.length : ℚ) * (sf.map (fun y => y * y)).sum - sf.sum * sf.sum ≠ 0 :=
    ne_of_gt (ols_denom_pos sf hnd hlen)
  simp only [linearFitIntercept, h1, h2, h3, h4, List.length_map, hsq]
  rw [if_neg hd]
  congr 1
  rw [sum_map_affine, sum_map_mul_affine]
  have hnum : ((sf.length : ℚ) * a + b * sf.sum) * (sf.map (fun y => y * y)).sum -
      sf.sum * (a * sf.sum + b * (sf.map (fun y => y * y)).sum) =
      a * ((sf.length : ℚ) * (sf.map (fun y => y * y)).sum - sf.sum * sf.sum) := by
    ring
  rw [hnum, mul_div_cancel_right₀ _ hd]

/-! ### Inversion lemmas for the engine operations -/

lemma map_fst_pairs (f : ℚ → ℚ) (sf : List ℚ) :
    (sf.map (fun s => (s, f s))).map Prod.fst = sf := by
  rw [List.map_map]
  exact List.map_id sf

lemma construct_ok_eq (model : FitModel) (sf : List ℚ) (e₀ : Engine)
    (h : construct model sf = .ok e₀) :
    e₀ = ⟨model, sf, [], .Idle, none⟩ := by
  unfold construct at h
  split at h
  · exact absurd h (by simp)
  · split at h
    · exact absurd h (by simp)
    · exact (Except.ok.inj h).symm

lemma push_ok_eq (e : Engine) (s v : ℚ) (e' : Engine) (h : e.push s v = .ok e') :
    0 < s ∧ e' = { e with store := e.store ++ [⟨s, v⟩],
                          state := .Accumulating, cached := none } := by
  unfold Engine.push at h
  by_cases hs : 0 < s
  · rw [if_pos hs] at h
    exact ⟨hs, (Except.ok.inj h).symm⟩
  · rw [if_neg hs] at h
    exact absurd h (by simp)

lemma pushAll_ok_store (data : List (ℚ × ℚ)) : ∀ e e' : Engine,
    e.pushAll data = .ok e' →
    e'.store = e.store ++ data.map (fun p => Sample.mk p.1 p.2) ∧
      e'.scaleFactors = e.scaleFactors ∧ e'.fitModel = e.fitModel := by
  induction data with
  | nil =>
      intro e e' h
      cases Except.ok.inj h
      simp
  | cons p rest ih =>
      intro e e' h
      obtain ⟨s, v⟩ := p
      unfold Engine.pushAll at h
      cases hp : e.push s v with
      | error err => rw [hp] at h; exact absurd h (by simp)
      | ok e₁ =>
          rw [hp] at h
          obtain ⟨hst, hsf, hfm⟩ := ih e₁ e' h
          obtain ⟨-, he₁⟩ := push_ok_eq e s v e₁ hp
          subst he₁
          refine ⟨?_, hsf, hfm⟩
          rw [hst]
          simp

lemma reduce_ok_not_missing (e : Engine) (x : ExtrapolationResult × Engine)
    (h : e.reduce = .ok x) :
    ∀ s ∈ e.scaleFactors, samplesAt e.store s ≠ [] := by
  intro s hs hemp
  rw [reduce_missing e s hs hemp] at h
  exact absurd h (by simp)

lemma reduce_ok_eq (e : Engine) (r : ExtrapolationResult) (e' : Engine)
    (h : e.reduce = .ok (r, e')) :
    e' = { e with state := .Reduced, cached := some r.zeroNoiseValue } := by
  have hnm := reduce_ok_not_missing e (r, e') h
  have hfalse := reduce_not_missing e hnm
  unfold Engine.reduce at h
  rw [if_neg (by rw [hfalse]; simp)] at h
  cases hc : e.cached with
  | some z =>
      rw [hc] at h
      simp only [Except.ok.injEq, Prod.mk.injEq] at h
      obtain ⟨hr, he'⟩ := h
      subst he'
      rw [← hr, ← hc]
  | none =>
      rw [hc] at h
      unfold Engine.reduceFresh at h
      cases hf : fitAt0 e.fitModel e.effectivePoints with
      | error err => rw [hf] at h; exact absurd h (by simp)
      | ok z =>
          rw [hf] at h
          simp only [Except.ok.injEq, Prod.mk.injEq] at h
          obtain ⟨hr, he'⟩ := h
          subst he'
          rw [← hr]

lemma reduce_cached (e : Engine) (z : ℚ) (hc : e.cached = some z)
    (hne : ∀ s ∈ e.scaleFactors, samplesAt e.store s ≠ []) :
    e.reduce = .ok (⟨z⟩, { e with state := .Reduced }) := by
  unfold Engine.reduce
  rw [if_neg (by rw [reduce_not_missing e hne]; simp), hc]

/-! ### Permutation invariance of the reduction -/

lemma any_congr_list (l : List α) (f g : α → Bool) (h : ∀ x ∈ l, f x = g x) :
    l.any f = l.any g := by
  induction l with
  | nil => rfl
  | cons a tl ih =>
      simp only [List.any_cons, h a (List.mem_cons_self a tl)]
      rw [ih fun x hx => h x (List.mem_cons_of_mem a hx)]

lemma isEmpty_eq_of_perm (l l' : List ℚ) (h : l.Perm l') : l.isEmpty = l'.isEmpty := by
  cases l with
  | nil => rw [← h.nil_eq]
  | cons a tl =>
      cases l' with
      | nil => exact absurd h.eq_nil (by simp)
      | cons b tl' => rfl

lemma samplesAt_perm (st st' : List Sample) (hp : st.Perm st') (s : ℚ) :
    (samplesAt st s).Perm (samplesAt st' s) :=
  (hp.filter _).map _

lemma mean_perm (l l' : List ℚ) (hp : l.Perm l') : mean l = mean l' := by
  unfold mean
  rw [hp.sum_eq, hp.length_eq]

lemma reduceValue_congr (fm : FitModel) (sf : List ℚ) (stA stB : List Sample)
    (stt stt' : EngineState) (c : Option ℚ)
    (hm : ∀ s ∈ sf, mean (samplesAt stA s) = mean (samplesAt stB s))
    (he : ∀ s ∈ sf, (samplesAt stA s).isEmpty = (samplesAt stB s).isEmpty) :
    Engine.reduceValue ⟨fm, sf, stA, stt, c⟩ =
      Engine.reduceValue ⟨fm, sf, stB, stt', c⟩ := by
  have hany : sf.any (fun s => (samplesAt stA s).isEmpty) =
      sf.any (fun s => (samplesAt stB s).isEmpty) :=
    any_congr_list sf _ _ he
  have hpts : sf.map (fun s => (s, mean (samplesAt stA s))) =
      sf.map (fun s => (s, mean (samplesAt stB s))) :=
    List.map_congr_left fun s hs => by rw [hm s hs]
  unfold Engine.reduceValue Engine.reduce Engine.reduceFresh Engine.effectivePoints
  simp only [hany, hpts]
  by_cases hC : (sf.any fun s => (samplesAt stB s).isEmpty) = true
  · rw [if_pos hC, if_pos hC]
  · rw [if_neg hC, if_neg hC]
    cases c with
    | some z => rfl
    | none =>
        cases hf : fitAt0 fm (sf.map fun s => (s, mean (samplesAt stB s))) with
        | error err => rfl
        | ok z => rfl

lemma reduceValue_congr_store (e : Engine) (st' : List Sample)
    (hp : e.store.Perm st') :
    e.reduceValue = Engine.reduceValue { e with store := st' } := by
  obtain ⟨fm, sf, st, stt, c⟩ := e
  exact reduceValue_congr fm sf st st' stt stt c
    (fun s _ => mean_perm _ _ (samplesAt_perm st st' hp s))
    (fun s _ => isEmpty_eq_of_perm _ _ (samplesAt_perm st st' hp s))

lemma samplesAt_const_map (s₀ : ℚ) (vs : List ℚ) (s : ℚ) :
    samplesAt (vs.map (fun v => Sample.mk s₀ v)) s = if s₀ = s then vs else [] := by
  induction vs with
  | nil => by_cases h : s₀ = s <;> simp [samplesAt, h]
  | cons v tl ih =>
      rw [List.map_cons, samplesAt_cons, ih]
      by_cases h : s₀ = s <;> simp [h]

lemma reduceValue_mean_collapse (e : Engine) (s₀ : ℚ) (vs : List ℚ)
    (hvs : vs ≠ []) (h0 : samplesAt e.store s₀ = []) :
    Engine.reduceValue { e with store := e.store ++ vs.map (fun v => Sample.mk s₀ v) } =
      Engine.reduceValue { e with store := e.store ++ [Sample.mk s₀ (mean vs)] } := by
  obtain ⟨fm, sf, st, stt, c⟩ := e
  have hsingle : ∀ s, samplesAt [Sample.mk s₀ (mean vs)] s =
      if s₀ = s then [mean vs] else [] :=
    fun s => samplesAt_const_map s₀ [mean vs] s
  refine reduceValue_congr fm sf _ _ stt stt c ?_ ?_
  · intro s _
    rw [samplesAt_append, samplesAt_append, samplesAt_const_map, hsingle]
    by_cases h : s₀ = s
    · subst h
      rw [if_pos rfl, if_pos rfl, h0]
      simp only [List.nil_append]
      rw [mean_singleton]
    · rw [if_neg h, if_neg h]
  · intro s _
    rw [samplesAt_append, samplesAt_append, samplesAt_const_map, hsingle]
    by_cases h : s₀ = s
    · subst h
      rw [if_pos rfl, if_pos rfl, h0]
      simp only [List.nil_append]
      cases vs with
      | nil => exact absurd rfl hvs
      | cons a tl => rfl
    · rw [if_neg h, if_neg h]

lemma linearFit_ok (sf : List ℚ) (f : ℚ → ℚ) (hnd : sf.Nodup) (hlen : 2 ≤ sf.length) :
    ∃ r, linearFitIntercept (sf.map (fun s => (s, f s))) = .ok r := by
  have h1 : (sf.map (fun s => (s, f s))).map Prod.fst = sf := map_fst_pairs f sf
  have h3 : (sf.map (fun s => (s, f s))).map (fun p => p.1 * p.1) =
      sf.map (fun y => y * y) := by
    rw [List.map_map]
    rfl
  have hd : ((sf.length : ℚ)) * (sf.map (fun y => y * y)).sum - sf.sum * sf.sum ≠ 0 :=
    ne_of_gt (ols_denom_pos sf hnd hlen)
  cases hcase : linearFitIntercept (sf.map (fun s => (s, f s))) with
  | ok r => exact ⟨r, rfl⟩
  | error err =>
      exfalso
      simp only [linearFitIntercept, h1, h3, List.length_map] at hcase
      rw [if_neg hd] at hcase
      exact Except.noConfusion hcase

/-! ### The claims -/

/-- C1: for every n ≥ 2 distinct positive scale factors whose values are
generated by a polynomial of degree n − 1 (given by its coefficient list, of
length at most n), a Richardson-fit `reduce` run through the notebook flow
returns the polynomial's value at scale factor 0 within tolerance 1e-9
(exactly, in the rational model); the scenario scale_factors = [1,2,3],
values = [1,4,9] (f(s) = s²) ↦ 0 is the witness instance. -/
theorem c1_richardson_polynomial_exact (sf coeffs : List ℚ)
    (hpos : ∀ s ∈ sf, 0 < s) (hnd : sf.Nodup) (hlen : 2 ≤ sf.length)
    (hdeg : coeffs.length ≤ sf.length) :
    ∃ r, runZNE .Richardson sf (sf.map (fun s => (s, evalPoly coeffs s))) = .ok r ∧
      |r - evalPoly coeffs 0| ≤ 1 / 1000000000 := by
  refine ⟨evalPoly coeffs 0, ?_, by simp⟩
  rw [runZNE_eq_fitAt0 .Richardson sf _ hpos hnd hlen]
  simp only [fitAt0]
  rw [if_pos (show ((sf.map (fun s => (s, evalPoly coeffs s))).map Prod.fst).Nodup by
    rw [map_fst_pairs]; exact hnd)]
  rw [richardson_points_exact sf coeffs hnd hdeg]

/-- C2: for every n ≥ 2 distinct positive scale factors with values exactly
on the line v = a + b·s, a Linear-fit `reduce` returns the intercept a
within 1e-9 (exactly, in the rational model); and in the concrete scenario
scale_factors = [1,2,3], values = [0.9,0.8,0.7], Linear `reduce` returns 1
and Richardson `reduce` (degree-2 interpolation through the three collinear
points) also returns 1. -/
theorem c2_linear_intercept_exact (sf : List ℚ) (a b : ℚ)
    (hpos : ∀ s ∈ sf, 0 < s) (hnd : sf.Nodup) (hlen : 2 ≤ sf.length) :
    (∃ r, runZNE .Linear sf (sf.map (fun s => (s, a + b * s))) = .ok r ∧
        |r - a| ≤ 1 / 1000000000) ∧
    runZNE .Linear [1, 2, 3] [(1, 9/10), (2, 8/10), (3, 7/10)] = .ok 1 ∧
    runZNE .Richardson [1, 2, 3] [(1, 9/10), (2, 8/10), (3, 7/10)] = .ok 1 := by
  refine ⟨⟨a, ?_, by simp⟩, ?_, ?_⟩
  · rw [runZNE_eq_fitAt0 .Linear sf _ hpos hnd hlen]
    simp only [fitAt0]
    exact linearFit_exact sf a b hnd hlen
  · norm_num [runZNE, construct, Engine.pushAll, Engine.push, Engine.reduce,
      Engine.reduceFresh, Engine.effectivePoints, fitAt0, linearFitIntercept,
      samplesAt, mean, List.filter, FitModel.minPoints]
  · norm_num [runZNE, construct, Engine.pushAll, Engine.push, Engine.reduce,
      Engine.reduceFresh, Engine.effectivePoints, fitAt0, lagrangeAt0,
      samplesAt, mean, List.filter, FitModel.minPoints]

/-- C3: the fit is deterministic — after a successful `reduce` producing
`(r, e')`, reducing `e'` again with no intervening `push` returns the very
same `(r, e')` (bit-identical in the rational model; the computation uses no
randomness). -/
theorem c3_reduce_deterministic (e : Engine) (r : ExtrapolationResult) (e' : Engine)
    (h : e.reduce = .ok (r, e')) :
    e'.reduce = .ok (r, e') := by
  have he' := reduce_ok_eq e r e' h
  have hnm := reduce_ok_not_missing e (r, e') h
  subst he'
  exact reduce_cached _ r.zeroNoiseValue rfl hnm

/-- C4: the reduced value only depends on the multiset of recorded samples
(push order is irrelevant); replacing the samples of one scale factor by the
single sample carrying their arithmetic mean leaves the reduced value
unchanged (the fit consumes per-scale-factor means); and the store itself
retains every pushed sample verbatim rather than averaging on insertion. -/
theorem c4_mean_and_order_independent :
    (∀ (e : Engine) (st' : List Sample), e.store.Perm st' →
        e.reduceValue = Engine.reduceValue { e with store := st' }) ∧
    (∀ (e : Engine) (s₀ : ℚ) (vs : List ℚ), vs ≠ [] → samplesAt e.store s₀ = [] →
        Engine.reduceValue
            { e with store := e.store ++ vs.map (fun v => Sample.mk s₀ v) } =
          Engine.reduceValue
            { e with store := e.store ++ [Sample.mk s₀ (mean vs)] }) ∧
    (∀ (e : Engine) (s v : ℚ) (e' : Engine), e.push s v = .ok e' →
        e'.store = e.store ++ [Sample.mk s v]) :=
  ⟨reduceValue_congr_store, reduceValue_mean_collapse,
   fun e s v e' h => by rw [(push_ok_eq e s v e' h).2]⟩

/-- C5: `reduce` fails with `MissingSamples` whenever a declared scale
factor has no recorded sample (the `Except` result carries no partial
`ExtrapolationResult` on failure); in particular `push` then `clear` (which
empties the store) then `reduce` fails with `MissingSamples`. -/
theorem c5_missing_samples :
    (∀ (e : Engine) (s : ℚ), s ∈ e.scaleFactors → samplesAt e.store s = [] →
        e.reduce = .error .MissingSamples) ∧
    (∀ (model : FitModel) (sf : List ℚ) (s v : ℚ) (e₀ e₁ : Engine),
        construct model sf = .ok e₀ → e₀.push s v = .ok e₁ → sf ≠ [] →
        (e₁.clear).reduce = .error .MissingSamples) := by
  refine ⟨fun e s hs hemp => reduce_missing e s hs hemp, ?_⟩
  intro model sf s v e₀ e₁ hc hp hsf
  have he₀ := construct_ok_eq model sf e₀ hc
  have he₁ := (push_ok_eq e₀ s v e₁ hp).2
  subst he₀
  subst he₁
  cases sf with
  | nil => exact absurd rfl hsf
  | cons s0 tl => exact reduce_missing _ s0 (List.mem_cons_self _ _) rfl

/-- C6: `construct` fails with `InsufficientScaleFactors` whenever the
distinct positive scale factors supplied are fewer than the model's minimum
required points (Linear: 2, Richardson: 2 — with n points it fits exactly
those n —, Polynomial(d): d + 1); in particular `construct(Linear, [1.0])`
fails with `InsufficientScaleFactors`. -/
theorem c6_insufficient_scale_factors :
    (∀ (model : FitModel) (sf : List ℚ), sf.Nodup → (∀ s ∈ sf, 0 < s) →
        sf.length < model.minPoints →
        construct model sf = .error .InsufficientScaleFactors) ∧
    FitModel.minPoints .Linear = 2 ∧ FitModel.minPoints .Richardson = 2 ∧
    (∀ d, FitModel.minPoints (.Polynomial d) = d + 1) ∧
    construct .Linear [1] = .error .InsufficientScaleFactors := by
  refine ⟨?_, rfl, rfl, fun d => rfl, rfl⟩
  intro model sf hnd hpos hshort
  have hA : ¬(sf.any (fun s => decide (s ≤ 0)) = true) := by
    intro hc
    obtain ⟨s, hs, hle⟩ := List.any_eq_true.mp hc
    exact absurd (of_decide_eq_true hle) (not_le.mpr (hpos s hs))
  unfold construct
  rw [if_neg hA, if_pos hshort]

/-- C7: `push` fails with `InvalidScaleFactor` for every non-positive scale
factor and a failing push produces no new engine state (so nothing is
appended to the store); `construct` likewise fails with
`InvalidScaleFactor` when any supplied scale factor is non-positive.  (In
the rational embedding every representable scale factor is finite; NaN and
infinities have no counterpart.) -/
theorem c7_invalid_scale_factor :
    (∀ (e : Engine) (s v : ℚ), s ≤ 0 →
        e.push s v = .error .InvalidScaleFactor ∧ ∀ e', ¬e.push s v = .ok e') ∧
    (∀ (model : FitModel) (sf : List ℚ) (s : ℚ), s ∈ sf → s ≤ 0 →
        construct model sf = .error .InvalidScaleFactor) := by
  constructor
  · intro e s v hs
    have h := push_err e s v (not_lt.mpr hs)
    exact ⟨h, fun e' hc => by rw [h] at hc; exact Except.noConfusion hc⟩
  · intro model sf s hmem hs
    have hA : sf.any (fun s => decide (s ≤ 0)) = true :=
      List.any_eq_true.mpr ⟨s, hmem, decide_eq_true hs⟩
    unfold construct
    rw [if_pos hA]

/-- C8: the SampleSet is append-only — every successful `push` appends
exactly one sample at the end (insertion order preserved along a whole
sequence of pushes), `reduce` never removes or mutates samples, `clear` is
the one exception and empties the whole store, and `samples()` is exactly
the stored ordered sequence. -/
theorem c8_store_append_only :
    (∀ (e : Engine) (s v : ℚ) (e' : Engine), e.push s v = .ok e' →
        e'.samples = e.samples ++ [Sample.mk s v]) ∧
    (∀ (e : Engine) (data : List (ℚ × ℚ)) (e' : Engine), e.pushAll data = .ok e' →
        e'.samples = e.samples ++ data.map (fun p => Sample.mk p.1 p.2)) ∧
    (∀ (e : Engine) (r : ExtrapolationResult) (e' : Engine), e.reduce = .ok (r, e') →
        e'.samples = e.samples) ∧
    (∀ e : Engine, (e.clear).samples = []) ∧
    (∀ e : Engine, e.samples = e.store) := by
  refine ⟨?_, ?_, ?_, fun e => rfl, fun e => rfl⟩
  · intro e s v e' h
    rw [(push_ok_eq e s v e' h).2]
    rfl
  · intro e data e' h
    exact (pushAll_ok_store data e e' h).1
  · intro e r e' h
    rw [reduce_ok_eq e r e' h]
    rfl

/-- C9: the engine's state machine — Idle after `construct`, Accumulating
after any successful `push` (cache invalidated), Reduced after a successful
`reduce` with the result cached; a `push` performed in the Reduced state
moves back to Accumulating, invalidates the cache and enlarges the store,
so the next `reduce` recomputes the fit instead of returning the stale
cached value. -/
theorem c9_state_machine :
    (∀ (model : FitModel) (sf : List ℚ) (e : Engine), construct model sf = .ok e →
        e.state = .Idle ∧ e.cached = none ∧ e.store = []) ∧
    (∀ (e : Engine) (s v : ℚ) (e' : Engine), e.push s v = .ok e' →
        e'.state = .Accumulating ∧ e'.cached = none) ∧
    (∀ (e : Engine) (r : ExtrapolationResult) (e' : Engine), e.reduce = .ok (r, e') →
        e'.state = .Reduced ∧ e'.cached = some r.zeroNoiseValue) ∧
    (∀ (e : Engine) (r : ExtrapolationResult) (e' : Engine) (s v : ℚ) (e'' : Engine),
        e.reduce = .ok (r, e') → e'.push s v = .ok e'' →
        e''.state = .Accumulating ∧ e''.cached = none ∧
          e''.store = e.store ++ [Sample.mk s v] ∧ e''.reduce = e''.reduceFresh) := by
  refine ⟨?_, ?_, ?_, ?_⟩
  · intro model sf e h
    rw [construct_ok_eq model sf e h]
    exact ⟨rfl, rfl, rfl⟩
  · intro e s v e' h
    rw [(push_ok_eq e s v e' h).2]
    exact ⟨rfl, rfl⟩
  · intro e r e' h
    rw [reduce_ok_eq e r e' h]
    exact ⟨rfl, rfl⟩
  · intro e r e' s v e'' h1 h2
    have he' := reduce_ok_eq e r e' h1
    have he'' := (push_ok_eq e' s v e'' h2).2
    have hnm := reduce_ok_not_missing e (r, e') h1
    subst he'
    subst he''
    refine ⟨rfl, rfl, rfl, ?_⟩
    apply reduce_eq_fresh
    · rfl
    · intro s' hs'
      have h3 := hnm s' hs'
      show samplesAt (e.store ++ [Sample.mk s v]) s' ≠ []
      rw [samplesAt_append]
      intro hc
      exact h3 (List.append_eq_nil.mp hc).1

/-- C10: `reduce` is pure classical post-processing — it never mutates the
SampleSet (and, structurally, takes no executor: `runZNE` consumes only the
already-measured data), so once the `(scale_factor, value)` pairs are
measured and pushed, both a Richardson engine and a Linear engine
successfully reduce the very same recorded data with no further executor
call. -/
theorem c10_reduce_pure_postprocessing :
    (∀ (e : Engine) (r : ExtrapolationResult) (e' : Engine), e.reduce = .ok (r, e') →
        e'.samples = e.samples) ∧
    (∀ (sf : List ℚ) (f : ℚ → ℚ), sf.Nodup → (∀ s ∈ sf, 0 < s) → 2 ≤ sf.length →
        (∃ r, runZNE .Richardson sf (sf.map (fun s => (s, f s))) = .ok r) ∧
        (∃ r, runZNE .Linear sf (sf.map (fun s => (s, f s))) = .ok r)) := by
  constructor
  · intro e r e' h
    rw [reduce_ok_eq e r e' h]
    rfl
  · intro sf f hnd hpos hlen
    constructor
    · refine ⟨lagrangeAt0 (sf.map (fun s => (s, f s))), ?_⟩
      rw [runZNE_eq_fitAt0 .Richardson sf f hpos hnd hlen]
      simp only [fitAt0]
      rw [if_pos (show ((sf.map (fun s => (s, f s))).map Prod.fst).Nodup by
        rw [map_fst_pairs]; exact hnd)]
    · obtain ⟨r, hr⟩ := linearFit_ok sf f hnd hlen
      refine ⟨r, ?_⟩
      rw [runZNE_eq_fitAt0 .Linear sf f hpos hnd hlen]
      exact hr

/-! ### Concrete witnesses -/

/-- C1 witness: the notebook's quadratic scenario — scale factors [1,2,3],
values generated by f(s) = s² (coefficient list [0,0,1]), Richardson
extrapolation at 0. -/
theorem c1_richardson_polynomial_exact_witness :
    ∃ r, runZNE .Richardson [1, 2, 3]
        (([1, 2, 3] : List ℚ).map (fun s => (s, evalPoly [0, 0, 1] s))) = .ok r ∧
      |r - evalPoly [0, 0, 1] 0| ≤ 1 / 1000000000 :=
  c1_richardson_polynomial_exact [1, 2, 3] [0, 0, 1] (by decide) (by decide)
    (by decide) (by decide)

/-- C2 witness: the line v = 1 − s/10 over scale factors [1,2,3]
(values 0.9, 0.8, 0.7); the Linear fit recovers the intercept 1. -/
theorem c2_linear_intercept_exact_witness :
    ∃ r, runZNE .Linear [1, 2, 3]
        (([1, 2, 3] : List ℚ).map (fun s => (s, 1 + (-1 / 10) * s))) = .ok r ∧
      |r - 1| ≤ 1 / 1000000000 :=
  (c2_linear_intercept_exact [1, 2, 3] 1 (-1 / 10) (by decide) (by decide)
    (by decide)).1

/-- C3 witness: a reduced engine with a cached result reduces again to the
same result. -/
theorem c3_reduce_deterministic_witness :
    Engine.reduce ⟨.Linear, [1, 2], [⟨1, 0⟩, ⟨2, 0⟩], .Reduced, some 7⟩ =
      .ok (⟨7⟩, ⟨.Linear, [1, 2], [⟨1, 0⟩, ⟨2, 0⟩], .Reduced, some 7⟩) :=
  c3_reduce_deterministic ⟨.Linear, [1, 2], [⟨1, 0⟩, ⟨2, 0⟩], .Reduced, some 7⟩
    ⟨7⟩ ⟨.Linear, [1, 2], [⟨1, 0⟩, ⟨2, 0⟩], .Reduced, some 7⟩ (by rfl)

/-- C4 witness: pushing the two samples in the opposite order leaves the
reduced value unchanged. -/
theorem c4_mean_and_order_independent_witness :
    Engine.reduceValue ⟨.Linear, [1, 2], [⟨1, 3⟩, ⟨2, 4⟩], .Accumulating, none⟩ =
      Engine.reduceValue ⟨.Linear, [1, 2], [⟨2, 4⟩, ⟨1, 3⟩], .Accumulating, none⟩ :=
  c4_mean_and_order_independent.1
    ⟨.Linear, [1, 2], [⟨1, 3⟩, ⟨2, 4⟩], .Accumulating, none⟩
    [⟨2, 4⟩, ⟨1, 3⟩] (by decide)

/-- C5 witness: construct over [1,2], push one sample, clear, reduce —
the reduction fails with `MissingSamples`. -/
theorem c5_missing_samples_witness :
    (Engine.clear ⟨.Linear, [1, 2], [⟨1, 5⟩], .Accumulating, none⟩).reduce =
      .error .MissingSamples :=
  c5_missing_samples.2 .Linear [1, 2] 1 5 ⟨.Linear, [1, 2], [], .Idle, none⟩
    ⟨.Linear, [1, 2], [⟨1, 5⟩], .Accumulating, none⟩ (by rfl) (by rfl) (by decide)

/-- C6 witness: a cubic fit over only two scale factors is rejected. -/
theorem c6_insufficient_scale_factors_witness :
    construct (.Polynomial 3) [1, 2] = .error .InsufficientScaleFactors :=
  c6_insufficient_scale_factors.1 (.Polynomial 3) [1, 2] (by decide) (by decide)
    (by decide)

/-- C7 witness: pushing scale factor 0 fails with `InvalidScaleFactor`. -/
theorem c7_invalid_scale_factor_witness :
    Engine.push ⟨.Linear, [1, 2], [], .Idle, none⟩ 0 1 =
      .error .InvalidScaleFactor :=
  (c7_invalid_scale_factor.1 ⟨.Linear, [1, 2], [], .Idle, none⟩ 0 1 (by decide)).1

/-- C8 witness: one successful push appends exactly one sample at the end
of the store. -/
theorem c8_store_append_only_witness :
    Engine.samples ⟨.Linear, [1, 2], [⟨1, 3⟩, ⟨2, 4⟩, ⟨1, 5⟩], .Accumulating, none⟩ =
      Engine.samples ⟨.Linear, [1, 2], [⟨1, 3⟩, ⟨2, 4⟩], .Reduced, some 9⟩ ++
        [Sample.mk 1 5] :=
  c8_store_append_only.1 ⟨.Linear, [1, 2], [⟨1, 3⟩, ⟨2, 4⟩], .Reduced, some 9⟩ 1 5
    ⟨.Linear, [1, 2], [⟨1, 3⟩, ⟨2, 4⟩, ⟨1, 5⟩], .Accumulating, none⟩ (by rfl)

/-- C9 witness: a push performed on a Reduced engine with a cached result
moves it to Accumulating, drops the cache, enlarges the store, and the next
reduce is a fresh fit computation. -/
theorem c9_state_machine_witness :
    (⟨.Linear, [1, 2], [⟨1, 3⟩, ⟨2, 4⟩, ⟨1, 5⟩], .Accumulating, none⟩ :
        Engine).state = .Accumulating ∧
    (⟨.Linear, [1, 2], [⟨1, 3⟩, ⟨2, 4⟩, ⟨1, 5⟩], .Accumulating, none⟩ :
        Engine).cached = none ∧
    (⟨.Linear, [1, 2], [⟨1, 3⟩, ⟨2, 4⟩, ⟨1, 5⟩], .Accumulating, none⟩ :
        Engine).store =
      (⟨.Linear, [1, 2], [⟨1, 3⟩, ⟨2, 4⟩], .Reduced, some 9⟩ : Engine).store ++
        [Sample.mk 1 5] ∧
    (⟨.Linear, [1, 2], [⟨1, 3⟩, ⟨2, 4⟩, ⟨1, 5⟩], .Accumulating, none⟩ :
        Engine).reduce =
      (⟨.Linear, [1, 2], [⟨1, 3⟩, ⟨2, 4⟩, ⟨1, 5⟩], .Accumulating, none⟩ :
        Engine).reduceFresh :=
  c9_state_machine.2.2.2 ⟨.Linear, [1, 2], [⟨1, 3⟩, ⟨2, 4⟩], .Reduced, some 9⟩
    ⟨9⟩ ⟨.Linear, [1, 2], [⟨1, 3⟩, ⟨2, 4⟩], .Reduced, some 9⟩ 1 5
    ⟨.Linear, [1, 2], [⟨1, 3⟩, ⟨2, 4⟩, ⟨1, 5⟩], .Accumulating, none⟩
    (by rfl) (by rfl)

/-- C10 witness: the same measured data over scale factors [1,2] is reduced
by both a Richardson and a Linear engine without any further measurement. -/
theorem c10_reduce_pure_postprocessing_witness :
    (∃ r, runZNE .Richardson [1, 2]
        (([1, 2] : List ℚ).map (fun s => (s, s))) = .ok r) ∧
    (∃ r, runZNE .Linear [1, 2]
        (([1, 2] : List ℚ).map (fun s => (s, s))) = .ok r) :=
  c10_reduce_pure_postprocessing.2 [1, 2] (fun s => s) (by decide) (by decide)
    (by decide)

end ZNE
